import Mathlib

/-!
Verification of the core of `imaginarylistsearch` (src/main.cpp): a keyed
16-bit Feistel permutation `prp16`, its MSB membership predicate `hasValue`,
a block scorer `score_list`, and a random-restart greedy bit-flip hillclimb
`searchBestListID` over the 32-bit key space.

Machine integers are modelled as `Nat` with explicit truncation (`% 2 ^ w`
or masks) exactly where the C++ code truncates; the C++ `int` scores are
modelled as `Int` (block sizes are far below `2 ^ 31`, so `Int` agrees with
the machine `int` on every reachable value).
-/

namespace ImaginaryListSearch

/-- Round function `F` (src/main.cpp lines 11-21): XOR the round's key byte
into the 8-bit half, apply a fixed multiply/xor-shift diffusion on 32 bits,
truncate to 8 bits.  `x *= 0x45D9F3B` on `uint32_t` is multiplication
`% 2 ^ 32`; the xor of two values below `2 ^ 32` stays below `2 ^ 32`, so no
further truncation is needed there; the final `(uint8_t)x` cast is `% 256`. -/
def F (r : Nat) (k : Nat) (round : Nat) : Nat :=
  let x1 := r ^^^ ((k >>> (round * 8)) &&& 0xFF)
  let x2 := (x1 * 0x45D9F3B) % 2 ^ 32
  let x3 := x2 ^^^ (x2 >>> 16)
  let x4 := (x3 * 0x45D9F3B) % 2 ^ 32
  let x5 := x4 ^^^ (x4 >>> 16)
  x5 % 256

/-- One Feistel round, the body of the loop in `prp16` (src/main.cpp
lines 29-33): `t = (uint8_t)(L ^ F(R, key, r)); L = R; R = t`. -/
def feistelRound (key : Nat) (r : Nat) (LR : Nat × Nat) : Nat × Nat :=
  (LR.2, (LR.1 ^^^ F LR.2 key r) % 256)

/-- Function `prp16` (src/main.cpp lines 23-35): split the 16-bit input into high
byte `L` and low byte `R`, run 4 Feistel rounds (`r = 0, 1, 2, 3`),
recombine as `(L << 8) | R`. -/
def prp16 (x : Nat) (key : Nat) : Nat :=
  let L := (x >>> 8) &&& 0xFF
  let R := x &&& 0xFF
  let LR := (List.range 4).foldl (fun p r => feistelRound key r p) (L, R)
  (LR.1 <<< 8) ||| LR.2

/-- Inverse of one Feistel round: recovers `(L, R)` from `(R, L ^ F(R))`. -/
def feistelRoundInv (key : Nat) (r : Nat) (LR : Nat × Nat) : Nat × Nat :=
  ((LR.2 ^^^ F LR.1 key r) % 256, LR.1)

/-- Inverse of `prp16`: undo the 4 Feistel rounds in reverse order.  Used to
establish that `prp16` is a bijection on the 16-bit universe. -/
def prp16Inv (y : Nat) (key : Nat) : Nat :=
  let L := (y >>> 8) &&& 0xFF
  let R := y &&& 0xFF
  let LR := (List.range 4).foldr (fun r p => feistelRoundInv key r p) (L, R)
  (LR.1 <<< 8) ||| LR.2

/-- Membership predicate `hasValue` (src/main.cpp lines 38-42):
`(prp16(x, listID) & 0x8000) == 0`. -/
def hasValue (listID : Nat) (x : Nat) : Bool :=
  (prp16 x listID &&& 0x8000) == 0

/-- Scorer `score_list` (src/main.cpp lines 45-51): count the block values
satisfying `hasValue`, then return `max(s, n - s)`. -/
def score_list (listID : Nat) (data : List Nat) : Int :=
  let s := data.foldl (fun s x => s + if hasValue listID x then 1 else 0) (0 : Int)
  max s ((data.length : Int) - s)

-- ## Basic bounds and inversion lemmas for the Feistel structure

theorem F_lt (r k round : Nat) : F r k round < 256 :=
  Nat.mod_lt _ (by norm_num)

theorem xor_lt_256 {a b : Nat} (ha : a < 256) (hb : b < 256) : a ^^^ b < 256 := by
  have h : a ^^^ b < 2 ^ 8 := Nat.xor_lt_two_pow (by norm_num [ha]) (by norm_num [hb])
  simpa using h

theorem and_255_eq (x : Nat) : x &&& 255 = x % 256 := by
  have h := Nat.and_pow_two_sub_one_eq_mod x 8
  norm_num at h
  exact h

theorem feistelRoundInv_feistelRound (key r : Nat) (LR : Nat × Nat)
    (h1 : LR.1 < 256) : feistelRoundInv key r (feistelRound key r LR) = LR := by
  obtain ⟨L, R⟩ := LR
  simp only [feistelRound, feistelRoundInv]
  have hx : L ^^^ F R key r < 256 := xor_lt_256 h1 (F_lt R key r)
  rw [Nat.mod_eq_of_lt hx, Nat.xor_cancel_right, Nat.mod_eq_of_lt h1]

theorem feistelRound_feistelRoundInv (key r : Nat) (LR : Nat × Nat)
    (h2 : LR.2 < 256) : feistelRound key r (feistelRoundInv key r LR) = LR := by
  obtain ⟨L, R⟩ := LR
  simp only [feistelRound, feistelRoundInv]
  have hx : R ^^^ F L key r < 256 := xor_lt_256 h2 (F_lt L key r)
  rw [Nat.mod_eq_of_lt hx, Nat.xor_cancel_right, Nat.mod_eq_of_lt h2]

theorem feistelRound_bounds (key r : Nat) (LR : Nat × Nat) (h2 : LR.2 < 256) :
    (feistelRound key r LR).1 < 256 ∧ (feistelRound key r LR).2 < 256 :=
  ⟨h2, Nat.mod_lt _ (by norm_num)⟩

theorem feistelRoundInv_bounds (key r : Nat) (LR : Nat × Nat) (h1 : LR.1 < 256) :
    (feistelRoundInv key r LR).1 < 256 ∧ (feistelRoundInv key r LR).2 < 256 :=
  ⟨Nat.mod_lt _ (by norm_num), h1⟩

theorem rounds_bounds (key : Nat) (rs : List Nat) (LR : Nat × Nat)
    (h1 : LR.1 < 256) (h2 : LR.2 < 256) :
    (rs.foldl (fun p r => feistelRound key r p) LR).1 < 256 ∧
      (rs.foldl (fun p r => feistelRound key r p) LR).2 < 256 := by
  induction rs generalizing LR with
  | nil => exact ⟨h1, h2⟩
  | cons r rs ih =>
      exact ih (feistelRound key r LR) (feistelRound_bounds key r LR h2).1
        (feistelRound_bounds key r LR h2).2

theorem roundsInv_bounds (key : Nat) (rs : List Nat) (LR : Nat × Nat)
    (h1 : LR.1 < 256) (h2 : LR.2 < 256) :
    (rs.foldr (fun r p => feistelRoundInv key r p) LR).1 < 256 ∧
      (rs.foldr (fun r p => feistelRoundInv key r p) LR).2 < 256 := by
  induction rs with
  | nil => exact ⟨h1, h2⟩
  | cons r rs ih =>
      exact ⟨(feistelRoundInv_bounds key r _ ih.1).1, (feistelRoundInv_bounds key r _ ih.1).2⟩

theorem roundsInv_rounds (key : Nat) (rs : List Nat) (LR : Nat × Nat)
    (h1 : LR.1 < 256) (h2 : LR.2 < 256) :
    rs.foldr (fun r p => feistelRoundInv key r p)
      (rs.foldl (fun p r => feistelRound key r p) LR) = LR := by
  induction rs generalizing LR with
  | nil => rfl
  | cons r rs ih =>
      rw [List.foldl_cons, List.foldr_cons,
        ih (feistelRound key r LR) (feistelRound_bounds key r LR h2).1
          (feistelRound_bounds key r LR h2).2,
        feistelRoundInv_feistelRound key r LR h1]

theorem rounds_roundsInv (key : Nat) (rs : List Nat) (LR : Nat × Nat)
    (h1 : LR.1 < 256) (h2 : LR.2 < 256) :
    rs.foldl (fun p r => feistelRound key r p)
      (rs.foldr (fun r p => feistelRoundInv key r p) LR) = LR := by
  induction rs generalizing LR with
  | nil => rfl
  | cons r rs ih =>
      rw [List.foldr_cons, List.foldl_cons,
        feistelRound_feistelRoundInv key r _ (roundsInv_bounds key rs LR h1 h2).2, ih LR h1 h2]

theorem pack_eq (a b : Nat) (hb : b < 256) : (a <<< 8) ||| b = 256 * a + b := by
  have hb' : b < 2 ^ 8 := by norm_num [hb]
  have h := Nat.mul_add_lt_is_or hb' a
  rw [Nat.shiftLeft_eq, Nat.mul_comm, ← h]

theorem pack_lt (a b : Nat) (ha : a < 256) (hb : b < 256) :
    (a <<< 8) ||| b < 65536 := by
  rw [pack_eq a b hb]
  omega

theorem prp16_lt (x key : Nat) : prp16 x key < 65536 := by
  unfold prp16
  have hL : (x >>> 8) &&& 0xFF < 256 := by
    rw [and_255_eq]
    exact Nat.mod_lt _ (by norm_num)
  have hR : x &&& 0xFF < 256 := by
    rw [and_255_eq]
    exact Nat.mod_lt _ (by norm_num)
  have hb := rounds_bounds key (List.range 4) (((x >>> 8) &&& 0xFF), (x &&& 0xFF)) hL hR
  exact pack_lt _ _ hb.1 hb.2

theorem unpack_pack (a b : Nat) (ha : a < 256) (hb : b < 256) :
    (((a <<< 8) ||| b) >>> 8) &&& 0xFF = a ∧ ((a <<< 8) ||| b) &&& 0xFF = b := by
  rw [pack_eq a b hb]
  constructor
  · rw [Nat.shiftRight_eq_div_pow]
    show (256 * a + b) / 2 ^ 8 &&& 255 = a
    rw [and_255_eq]
    omega
  · show (256 * a + b) &&& 255 = b
    rw [and_255_eq]
    omega

theorem prp16Inv_prp16 (x key : Nat) (hx : x < 65536) :
    prp16Inv (prp16 x key) key = x := by
  unfold prp16 prp16Inv
  have hL : (x >>> 8) &&& 0xFF < 256 := by
    rw [and_255_eq]; exact Nat.mod_lt _ (by norm_num)
  have hR : x &&& 0xFF < 256 := by
    rw [and_255_eq]; exact Nat.mod_lt _ (by norm_num)
  have hb := rounds_bounds key (List.range 4) (((x >>> 8) &&& 0xFF), (x &&& 0xFF)) hL hR
  simp only [(unpack_pack _ _ hb.1 hb.2).1, (unpack_pack _ _ hb.1 hb.2).2, Prod.mk.eta]
  rw [roundsInv_rounds key (List.range 4) _ hL hR]
  rw [pack_eq _ _ hR, and_255_eq, and_255_eq, Nat.shiftRight_eq_div_pow]
  show 256 * (x / 2 ^ 8 % 256) + x % 256 = x
  omega

theorem prp16_prp16Inv (y key : Nat) (hy : y < 65536) :
    prp16 (prp16Inv y key) key = y := by
  unfold prp16 prp16Inv
  have hL : (y >>> 8) &&& 0xFF < 256 := by
    rw [and_255_eq]; exact Nat.mod_lt _ (by norm_num)
  have hR : y &&& 0xFF < 256 := by
    rw [and_255_eq]; exact Nat.mod_lt _ (by norm_num)
  have hb := roundsInv_bounds key (List.range 4) (((y >>> 8) &&& 0xFF), (y &&& 0xFF)) hL hR
  simp only [(unpack_pack _ _ hb.1 hb.2).1, (unpack_pack _ _ hb.1 hb.2).2, Prod.mk.eta]
  rw [rounds_roundsInv key (List.range 4) _ hL hR]
  rw [pack_eq _ _ hR, and_255_eq, and_255_eq, Nat.shiftRight_eq_div_pow]
  show 256 * (y / 2 ^ 8 % 256) + y % 256 = y
  omega

theorem prp16Inv_lt (y key : Nat) : prp16Inv y key < 65536 := by
  unfold prp16Inv
  have hL : (y >>> 8) &&& 0xFF < 256 := by
    rw [and_255_eq]; exact Nat.mod_lt _ (by norm_num)
  have hR : y &&& 0xFF < 256 := by
    rw [and_255_eq]; exact Nat.mod_lt _ (by norm_num)
  have hb := roundsInv_bounds key (List.range 4) (((y >>> 8) &&& 0xFF), (y &&& 0xFF)) hL hR
  exact pack_lt _ _ hb.1 hb.2

theorem prp16_inj (key x y : Nat) (hx : x < 65536) (hy : y < 65536)
    (h : prp16 x key = prp16 y key) : x = y := by
  have := prp16Inv_prp16 x key hx
  rw [h, prp16Inv_prp16 y key hy] at this
  exact this.symm

-- ## Claim C1: prp16 is a bijection on the 16-bit universe for every key

/-- Claim C1: for every 32-bit key (indeed for every `Nat` key, which
subsumes all 32-bit values), `prp16(·, key)` is a bijection on the 16-bit
universe: it is injective on inputs below 65536, its image on all 65536
inputs has exactly 65536 distinct elements, and it has a well-defined
inverse `prp16Inv`. -/
theorem prp16_bijection (key : Nat) :
    (∀ x, x < 65536 → ∀ y, y < 65536 → prp16 x key = prp16 y key → x = y) ∧
    ((Finset.range 65536).image (fun x => prp16 x key)).card = 65536 ∧
    (∀ x, x < 65536 → prp16Inv (prp16 x key) key = x) := by
  refine ⟨fun x hx y hy h => prp16_inj key x y hx hy h, ?_, fun x hx => prp16Inv_prp16 x key hx⟩
  rw [Finset.card_image_of_injOn, Finset.card_range]
  intro x hx y hy h
  exact prp16_inj key x y (Finset.mem_range.mp hx) (Finset.mem_range.mp hy) h

/-- Witness for C1 at concrete inputs, key 0. -/
theorem prp16_bijection_witness :
    ((3 < 65536 ∧ 5 < 65536) ∧ (prp16 3 0 = prp16 5 0 → 3 = 5)) ∧
      (7 < 65536 ∧ prp16Inv (prp16 7 0) 0 = 7) :=
  ⟨⟨⟨by decide, by decide⟩, (prp16_bijection 0).1 3 (by decide) 5 (by decide)⟩,
    ⟨by decide, (prp16_bijection 0).2.2 7 (by decide)⟩⟩

-- ## Claim C2: the membership predicate splits the universe exactly 50/50

theorem and_32768_eq_zero_iff (y : Nat) (hy : y < 65536) :
    y &&& 0x8000 = 0 ↔ y < 32768 := by
  have h := Nat.and_two_pow y 15
  rw [Nat.testBit_to_div_mod] at h
  norm_num at h
  rw [h]
  by_cases hc : y / 32768 % 2 = 1
  · rw [decide_eq_true hc]
    show 1 * 32768 = 0 ↔ y < 32768
    omega
  · rw [decide_eq_false hc]
    show 0 * 32768 = 0 ↔ y < 32768
    omega

theorem hasValue_iff (key x : Nat) : hasValue key x = true ↔ prp16 x key &&& 0x8000 = 0 := by
  unfold hasValue
  exact beq_iff_eq ..

/-- Claim C2: for every key, exactly 32768 of the 65536 possible 16-bit
values satisfy the membership predicate `hasValue key`. -/
theorem hasValue_half (key : Nat) :
    ((Finset.range 65536).filter (fun x => hasValue key x = true)).card = 32768 := by
  have hcard :
      ((Finset.range 65536).filter (fun x => hasValue key x = true)).card =
        ((Finset.range 65536).filter (fun y => y &&& 0x8000 = 0)).card := by
    apply Finset.card_bij (fun x _ => prp16 x key)
    · intro x hx
      rw [Finset.mem_filter] at hx ⊢
      exact ⟨Finset.mem_range.mpr (prp16_lt x key), (hasValue_iff key x).mp hx.2⟩
    · intro x hx y hy h
      rw [Finset.mem_filter, Finset.mem_range] at hx hy
      exact prp16_inj key x y hx.1 hy.1 h
    · intro y hy
      rw [Finset.mem_filter, Finset.mem_range] at hy
      refine ⟨prp16Inv y key, ?_, prp16_prp16Inv y key hy.1⟩
      rw [Finset.mem_filter, Finset.mem_range]
      refine ⟨prp16Inv_lt y key, (hasValue_iff key _).mpr ?_⟩
      rw [prp16_prp16Inv y key hy.1]
      exact hy.2
  rw [hcard]
  have hset : (Finset.range 65536).filter (fun y => y &&& 0x8000 = 0) = Finset.range 32768 := by
    ext y
    rw [Finset.mem_filter, Finset.mem_range, Finset.mem_range]
    constructor
    · intro ⟨h1, h2⟩
      exact (and_32768_eq_zero_iff y h1).mp h2
    · intro h
      exact ⟨by omega, (and_32768_eq_zero_iff y (by omega)).mpr h⟩
  rw [hset, Finset.card_range]

-- ## Claims C3 and C9: properties of the scorer

theorem foldl_count (p : Nat → Bool) (data : List Nat) (a : Int) :
    data.foldl (fun s x => s + if p x then 1 else 0) a = a + data.countP p := by
  induction data generalizing a with
  | nil => simp
  | cons x l ih =>
      rw [List.foldl_cons, ih, List.countP_cons]
      by_cases h : p x <;> simp [h] <;> omega

theorem score_list_eq (listID : Nat) (data : List Nat) :
    score_list listID data =
      max ((data.countP (hasValue listID) : Int))
        ((data.length : Int) - (data.countP (hasValue listID) : Int)) := by
  unfold score_list
  rw [foldl_count (hasValue listID) data 0, zero_add]

theorem countP_cast_le (p : Nat → Bool) (data : List Nat) :
    (0 : Int) ≤ (data.countP p : Int) ∧ (data.countP p : Int) ≤ (data.length : Int) := by
  constructor
  · exact_mod_cast Nat.zero_le _
  · exact_mod_cast List.countP_le_length p

theorem score_list_nonneg (listID : Nat) (data : List Nat) :
    0 ≤ score_list listID data := by
  rw [score_list_eq]
  exact le_trans (countP_cast_le (hasValue listID) data).1 (le_max_left _ _)

/-- Claim C3: the score equals `max(c, n - c)` where `c` counts the block
values satisfying the membership predicate; hence `⌈n/2⌉ ≤ score ≤ n` for a
non-empty block, and `score = n` exactly when the predicate, or its
negation, holds for every element of the block. -/
theorem score_list_spec (key : Nat) (block : List Nat) :
    score_list key block =
        max ((block.countP (hasValue key) : Int))
          ((block.length : Int) - (block.countP (hasValue key) : Int)) ∧
      (block ≠ [] →
        ((block.length : Int) + 1) / 2 ≤ score_list key block ∧
          score_list key block ≤ (block.length : Int)) ∧
      (score_list key block = (block.length : Int) ↔
        (∀ x ∈ block, hasValue key x = true) ∨ (∀ x ∈ block, hasValue key x = false)) := by
  have he := score_list_eq key block
  have hb := countP_cast_le (hasValue key) block
  refine ⟨he, ?_, ?_⟩
  · intro _
    rcases le_total ((block.countP (hasValue key) : Int))
        ((block.length : Int) - (block.countP (hasValue key) : Int)) with hle | hle
    · rw [he, max_eq_right hle]
      omega
    · rw [he, max_eq_left hle]
      omega
  · constructor
    · intro hmax
      rcases le_total ((block.countP (hasValue key) : Int))
          ((block.length : Int) - (block.countP (hasValue key) : Int)) with hle | hle
      · rw [he, max_eq_right hle] at hmax
        have h0 : block.countP (hasValue key) = 0 := by omega
        exact Or.inr fun x hx => by
          have := List.countP_eq_zero.mp h0 x hx
          simpa using this
      · rw [he, max_eq_left hle] at hmax
        have h0 : block.countP (hasValue key) = block.length := by
          exact_mod_cast hmax
        exact Or.inl (List.countP_eq_length.mp h0)
    · intro h
      have hcount : (block.countP (hasValue key) : Int) = (block.length : Int) ∨
          (block.countP (hasValue key) : Int) = 0 := by
        rcases h with h | h
        · exact Or.inl (by exact_mod_cast List.countP_eq_length.mpr h)
        · have h0 : block.countP (hasValue key) = 0 :=
            List.countP_eq_zero.mpr fun x hx => by simp [h x hx]
          exact Or.inr (by exact_mod_cast h0)
      rcases le_total ((block.countP (hasValue key) : Int))
          ((block.length : Int) - (block.countP (hasValue key) : Int)) with hle | hle
      · rw [he, max_eq_right hle]
        omega
      · rw [he, max_eq_left hle]
        omega

/-- Witness for C3 on a concrete non-empty block. -/
theorem score_list_spec_witness :
    ((0 : Nat) :: []) ≠ [] ∧
      (((((0 : Nat) :: []).length : Int) + 1) / 2 ≤ score_list 0 [0] ∧
        score_list 0 [0] ≤ (((0 : Nat) :: []).length : Int)) :=
  ⟨by decide, (score_list_spec 0 [0]).2.1 (by decide)⟩

/-- Scorer with the membership predicate logically negated, following the
words of claim C9: count the values for which `hasValue` is false, then
apply the same `max(s, n - s)` normalization. -/
def score_list_neg (listID : Nat) (data : List Nat) : Int :=
  let s := data.foldl (fun s x => s + if ! hasValue listID x then 1 else 0) (0 : Int)
  max s ((data.length : Int) - s)

theorem countP_not_eq (p : Nat → Bool) (l : List Nat) :
    l.countP (fun x => ! p x) = l.length - l.countP p := by
  induction l with
  | nil => simp
  | cons x l ih =>
      have hle := @List.countP_le_length Nat p l
      rw [List.countP_cons, List.countP_cons, ih]
      by_cases h : p x <;> simp [h] <;> omega


/-- Claim C9: logically negating the membership predicate inside the scorer
does not change the score. -/
theorem score_list_neg_eq (key : Nat) (block : List Nat) :
    score_list_neg key block = score_list key block := by
  unfold score_list_neg
  rw [foldl_count (fun x => ! hasValue key x) block 0, zero_add, countP_not_eq,
    score_list_eq]
  have hb := countP_cast_le (hasValue key) block
  have hlen : ((block.length - block.countP (hasValue key) : Nat) : Int) =
      (block.length : Int) - (block.countP (hasValue key) : Int) := by
    have := @List.countP_le_length Nat (hasValue key) block
    omega
  rw [hlen]
  rcases le_total ((block.countP (hasValue key) : Int))
      ((block.length : Int) - (block.countP (hasValue key) : Int)) with hle | hle
  · rw [max_eq_right hle, max_eq_left (by omega)]
  · rw [max_eq_left hle, max_eq_right (by omega)]
    omega

-- ## Key search: random restarts + greedy bit-flip hillclimb

/-- Structure `SearchConfig` (src/main.cpp lines 54-58).  `restarts` and `hillIters`
are C++ `int`, hence `Int`; both `for` loops run `max(·, 0)` iterations. -/
structure SearchConfig where
  restarts : Int := 200
  hillIters : Int := 6
  tryAllBits : Bool := true

/-- Structure `SearchResult` (src/main.cpp lines 60-63) with its default member
initializers `bestID = 0`, `bestScore = -1`. -/
structure SearchResult where
  bestID : Nat := 0
  bestScore : Int := -1
  deriving DecidableEq

/-- Body of the bit-flip loop in `hillclimb` (src/main.cpp lines 83-91):
state is `(cur, curScore, improved)`; flip bit `b`, rescore, and adopt the
candidate exactly when its score strictly exceeds the current score. -/
def hillclimbStep (block : List Nat) (st : Nat × Int × Bool) (b : Nat) : Nat × Int × Bool :=
  let cand := st.1 ^^^ (1 <<< b)
  let sc := score_list cand block
  if sc > st.2.1 then (cand, sc, true) else st

/-- One hillclimb pass (src/main.cpp lines 80-91): reset `improved` to
false, then scan bit positions `0..31` in order. -/
def hillclimbPass (block : List Nat) (cur : Nat) (curScore : Int) : Nat × Int × Bool :=
  (List.range 32).foldl (hillclimbStep block) (cur, curScore, false)

/-- The pass loop of `hillclimb` (src/main.cpp lines 78-94), with the
remaining pass budget as fuel; breaks early when a pass made no
improvement. -/
def hillclimbLoop (block : List Nat) : Nat → Nat → Int → Nat × Int
  | 0, cur, curScore => (cur, curScore)
  | p + 1, cur, curScore =>
    let st := hillclimbPass block cur curScore
    if st.2.2 then hillclimbLoop block p st.1 st.2.1 else (st.1, st.2.1)

/-- Function `hillclimb` (src/main.cpp lines 74-96): greedy hillclimb from a
starting key, running at most `cfg.hillIters` passes. -/
def hillclimb (block : List Nat) (cfg : SearchConfig) (startID : Nat) : Nat × Int :=
  hillclimbLoop block cfg.hillIters.toNat startID (score_list startID block)

/-- Body of the restart loop (src/main.cpp lines 99-106): keep the
hillclimb result only when its score strictly exceeds the tracked best. -/
def searchStep (block : List Nat) (cfg : SearchConfig) (res : SearchResult) (start : Nat) :
    SearchResult :=
  let r := hillclimb block cfg start
  if r.2 > res.bestScore then ⟨r.1, r.2⟩ else res

/-- Function `searchBestListID` (src/main.cpp lines 65-108).  The seeded random
source (`std::mt19937_64` plus `uniform_int_distribution`) is C++ standard
library code, not part of this repository; modelled from the spec: "draw
one uniformly random 32-bit starting key from the seeded random source"
and "for a fixed seed ... the result is fully reproducible" — the
generator is a pure stream of 32-bit draws fully determined by the seed,
passed here as the function `draws` (restart `r` uses draw `draws r`). -/
def searchBestListID (block : List Nat) (cfg : SearchConfig) (draws : Nat → Nat) :
    SearchResult :=
  ((List.range cfg.restarts.toNat).map draws).foldl (searchStep block cfg) ⟨0, -1⟩

-- ## Claim C4 (corrected): restarts ≤ 0 silently yields the default result

/-- Counterexample to claim C4 as stated: with `restarts = 0` the key
search does not refuse to search or signal a configuration error — it
silently returns the default-initialized `SearchResult`, i.e. the
meaningless default key 0 with the default score -1. -/
theorem searchBestListID_zero_restarts_default :
    searchBestListID [3, 1, 4] ⟨0, 6, true⟩ (fun _ => 0) = ⟨0, -1⟩ := rfl

/-- Claim C4 as amended: whenever the configuration has `restarts ≤ 0`,
`searchBestListID` performs no restart and returns the default
`SearchResult` `(bestID = 0, bestScore = -1)` unchanged; no error is
signalled. -/
theorem searchBestListID_nonpos_restarts (block : List Nat) (cfg : SearchConfig)
    (draws : Nat → Nat) (h : cfg.restarts ≤ 0) :
    searchBestListID block cfg draws = ⟨0, -1⟩ := by
  unfold searchBestListID
  have h0 : cfg.restarts.toNat = 0 := Int.toNat_of_nonpos h
  rw [h0]
  rfl

/-- Witness for the amended C4 at a concrete configuration. -/
theorem searchBestListID_nonpos_restarts_witness :
    (SearchConfig.mk (-3) 6 true).restarts ≤ 0 ∧
      searchBestListID [2, 7] ⟨-3, 6, true⟩ (fun _ => 0) = ⟨0, -1⟩ :=
  ⟨by decide, searchBestListID_nonpos_restarts [2, 7] ⟨-3, 6, true⟩ (fun _ => 0) (by decide)⟩

-- ## Claim C5: the search is deterministic

/-- Claim C5: the full key search is deterministic — two runs of
`searchBestListID` on equal blocks, equal configurations, and equal
seed-determined draw streams return identical `SearchResult`s.  (The
seeded `std::mt19937_64` source is a pure function of the 64-bit seed, so
equal seeds give equal draw streams.) -/
theorem searchBestListID_deterministic (b₁ b₂ : List Nat) (c₁ c₂ : SearchConfig)
    (d₁ d₂ : Nat → Nat) (hb : b₁ = b₂) (hc : c₁ = c₂) (hd : d₁ = d₂) :
    searchBestListID b₁ c₁ d₁ = searchBestListID b₂ c₂ d₂ := by
  rw [hb, hc, hd]

/-- Witness for C5 at a concrete block, configuration, and draw stream. -/
theorem searchBestListID_deterministic_witness :
    searchBestListID [1, 2] ⟨1, 1, true⟩ (fun _ => 9) =
      searchBestListID [1, 2] ⟨1, 1, true⟩ (fun _ => 9) :=
  searchBestListID_deterministic [1, 2] [1, 2] ⟨1, 1, true⟩ ⟨1, 1, true⟩
    (fun _ => 9) (fun _ => 9) rfl rfl rfl

-- ## Claim C6: structure of one hillclimb run

/-- Modelled from the spec (section 4.5, claim C6): scan the given bit
positions in order; for each one, score the *current* key (which already
includes flips accepted earlier in the same pass) with that single bit
flipped; adopt the flipped key exactly when its score strictly exceeds the
current score, recording that the pass improved. -/
def specScanBits (block : List Nat) : List Nat → Nat × Int × Bool → Nat × Int × Bool
  | [], st => st
  | b :: bs, st =>
    let cand := st.1 ^^^ (1 <<< b)
    let candScore := score_list cand block
    if candScore > st.2.1 then specScanBits block bs (cand, candScore, true)
    else specScanBits block bs st

/-- Modelled from the spec (section 4.5, claim C6): perform up to the given
number of passes, each scanning bit positions `0..31` in order with the
`improved` flag reset, and stop early after any full pass in which no bit
flip improved the score. -/
def specHillclimbLoop (block : List Nat) : Nat → Nat → Int → Nat × Int
  | 0, cur, curScore => (cur, curScore)
  | p + 1, cur, curScore =>
    match specScanBits block (List.range 32) (cur, curScore, false) with
    | (c, s, true) => specHillclimbLoop block p c s
    | (c, s, false) => (c, s)

/-- Modelled from the spec (section 4.5, claim C6): a hillclimb run from a
starting key performs up to `hillIters` passes over its own score. -/
def specHillclimb (block : List Nat) (iters : Nat) (start : Nat) : Nat × Int :=
  specHillclimbLoop block iters start (score_list start block)

theorem specScanBits_eq_foldl (block : List Nat) (bs : List Nat) (st : Nat × Int × Bool) :
    specScanBits block bs st = bs.foldl (hillclimbStep block) st := by
  induction bs generalizing st with
  | nil => rfl
  | cons b bs ih =>
      rw [List.foldl_cons, ← ih (hillclimbStep block st b)]
      simp only [specScanBits, hillclimbStep]
      by_cases h : score_list (st.1 ^^^ (1 <<< b)) block > st.2.1
      · rw [if_pos h, if_pos h]
      · rw [if_neg h, if_neg h]

/-- Claim C6: the code's hillclimb is exactly the spec's algorithm — up to
`hillIters` passes, each scanning bits `0..31` in order, eagerly adopting a
flipped key exactly on strict score improvement (later bits in the same
pass see earlier accepted flips), stopping early after a pass with no
improvement. -/
theorem hillclimb_eq_spec (block : List Nat) (cfg : SearchConfig) (start : Nat) :
    hillclimb block cfg start = specHillclimb block cfg.hillIters.toNat start := by
  unfold hillclimb specHillclimb
  generalize score_list start block = s0
  generalize cfg.hillIters.toNat = n
  induction n generalizing start s0 with
  | zero => rfl
  | succ p ih =>
      show (let st := hillclimbPass block start s0
          if st.2.2 then hillclimbLoop block p st.1 st.2.1 else (st.1, st.2.1)) =
        specHillclimbLoop block (p + 1) start s0
      rw [show specHillclimbLoop block (p + 1) start s0 =
          match specScanBits block (List.range 32) (start, s0, false) with
          | (c, s, true) => specHillclimbLoop block p c s
          | (c, s, false) => (c, s) from rfl]
      rw [specScanBits_eq_foldl]
      show (if (hillclimbPass block start s0).2.2 then
          hillclimbLoop block p (hillclimbPass block start s0).1 (hillclimbPass block start s0).2.1
        else ((hillclimbPass block start s0).1, (hillclimbPass block start s0).2.1)) =
        match hillclimbPass block start s0 with
        | (c, s, true) => specHillclimbLoop block p c s
        | (c, s, false) => (c, s)
      obtain ⟨c, s, imp⟩ := hillclimbPass block start s0
      cases imp
      · rfl
      · exact ih c s

-- ## Claim C7: the hillclimb score never decreases

theorem hillclimbStep_mono (block : List Nat) (st : Nat × Int × Bool) (b : Nat) :
    st.2.1 ≤ (hillclimbStep block st b).2.1 := by
  by_cases h : score_list (st.1 ^^^ (1 <<< b)) block > st.2.1
  · simp only [hillclimbStep]
    rw [if_pos h]
    exact le_of_lt h
  · simp only [hillclimbStep]
    rw [if_neg h]

theorem foldl_hillclimbStep_mono (block : List Nat) (bs : List Nat) (st : Nat × Int × Bool) :
    st.2.1 ≤ (bs.foldl (hillclimbStep block) st).2.1 := by
  induction bs generalizing st with
  | nil => exact le_refl _
  | cons b bs ih =>
      rw [List.foldl_cons]
      exact le_trans (hillclimbStep_mono block st b) (ih (hillclimbStep block st b))

theorem hillclimbPass_mono (block : List Nat) (cur : Nat) (curScore : Int) :
    curScore ≤ (hillclimbPass block cur curScore).2.1 :=
  foldl_hillclimbStep_mono block (List.range 32) (cur, curScore, false)

theorem hillclimbLoop_mono (block : List Nat) (p : Nat) (cur : Nat) (curScore : Int) :
    curScore ≤ (hillclimbLoop block p cur curScore).2 := by
  induction p generalizing cur curScore with
  | zero => exact le_refl _
  | succ p ih =>
      show curScore ≤ (if (hillclimbPass block cur curScore).2.2 then
          hillclimbLoop block p (hillclimbPass block cur curScore).1
            (hillclimbPass block cur curScore).2.1
        else ((hillclimbPass block cur curScore).1, (hillclimbPass block cur curScore).2.1)).2
      split
      · exact le_trans (hillclimbPass_mono block cur curScore) (ih _ _)
      · exact hillclimbPass_mono block cur curScore

/-- Claim C7: within one hillclimb run the current score never decreases —
each pass ends with a score at least the score it started from, and the
score returned by `hillclimb` is at least the score of the starting key. -/
theorem hillclimb_monotone (block : List Nat) (cur : Nat) (curScore : Int)
    (cfg : SearchConfig) (start : Nat) :
    curScore ≤ (hillclimbPass block cur curScore).2.1 ∧
      score_list start block ≤ (hillclimb block cfg start).2 :=
  ⟨hillclimbPass_mono block cur curScore,
    hillclimbLoop_mono block cfg.hillIters.toNat start (score_list start block)⟩

-- ## Score invariant: the hillclimb's tracked score is the score of its key

theorem hillclimbStep_inv (block : List Nat) (st : Nat × Int × Bool) (b : Nat)
    (h : st.2.1 = score_list st.1 block) :
    (hillclimbStep block st b).2.1 = score_list (hillclimbStep block st b).1 block := by
  by_cases hc : score_list (st.1 ^^^ (1 <<< b)) block > st.2.1
  · simp only [hillclimbStep]
    rw [if_pos hc]
  · simp only [hillclimbStep]
    rw [if_neg hc]
    exact h

theorem foldl_hillclimbStep_inv (block : List Nat) (bs : List Nat) (st : Nat × Int × Bool)
    (h : st.2.1 = score_list st.1 block) :
    (bs.foldl (hillclimbStep block) st).2.1 =
      score_list (bs.foldl (hillclimbStep block) st).1 block := by
  induction bs generalizing st with
  | nil => exact h
  | cons b bs ih =>
      rw [List.foldl_cons]
      exact ih (hillclimbStep block st b) (hillclimbStep_inv block st b h)

theorem hillclimbLoop_inv (block : List Nat) (p : Nat) (cur : Nat) (curScore : Int)
    (h : curScore = score_list cur block) :
    (hillclimbLoop block p cur curScore).2 =
      score_list (hillclimbLoop block p cur curScore).1 block := by
  induction p generalizing cur curScore with
  | zero => exact h
  | succ p ih =>
      have hpass : (hillclimbPass block cur curScore).2.1 =
          score_list (hillclimbPass block cur curScore).1 block :=
        foldl_hillclimbStep_inv block (List.range 32) (cur, curScore, false) h
      show (if (hillclimbPass block cur curScore).2.2 then
          hillclimbLoop block p (hillclimbPass block cur curScore).1
            (hillclimbPass block cur curScore).2.1
        else ((hillclimbPass block cur curScore).1, (hillclimbPass block cur curScore).2.1)).2 =
        score_list (if (hillclimbPass block cur curScore).2.2 then
          hillclimbLoop block p (hillclimbPass block cur curScore).1
            (hillclimbPass block cur curScore).2.1
        else ((hillclimbPass block cur curScore).1, (hillclimbPass block cur curScore).2.1)).1 block
      split
      · exact ih _ _ hpass
      · exact hpass

theorem hillclimb_inv (block : List Nat) (cfg : SearchConfig) (start : Nat) :
    (hillclimb block cfg start).2 = score_list (hillclimb block cfg start).1 block :=
  hillclimbLoop_inv block cfg.hillIters.toNat start (score_list start block) rfl

-- ## The restart loop keeps the first-found best

theorem searchFold_spec (block : List Nat) (cfg : SearchConfig) (l : List Nat)
    (init : SearchResult) :
    (l.foldl (searchStep block cfg) init = init ∧
      ∀ j, (hj : j < l.length) → (hillclimb block cfg l[j]).2 ≤ init.bestScore) ∨
    (∃ i, ∃ hi : i < l.length,
      (l.foldl (searchStep block cfg) init).bestID = (hillclimb block cfg l[i]).1 ∧
      (l.foldl (searchStep block cfg) init).bestScore = (hillclimb block cfg l[i]).2 ∧
      init.bestScore < (l.foldl (searchStep block cfg) init).bestScore ∧
      (∀ j, (hj : j < l.length) → j < i →
        (hillclimb block cfg l[j]).2 < (l.foldl (searchStep block cfg) init).bestScore) ∧
      (∀ j, (hj : j < l.length) →
        (hillclimb block cfg l[j]).2 ≤ (l.foldl (searchStep block cfg) init).bestScore)) := by
  induction l generalizing init with
  | nil =>
      left
      exact ⟨rfl, fun j hj => by simp at hj⟩
  | cons s t ih =>
      rw [List.foldl_cons]
      by_cases hcase : (hillclimb block cfg s).2 > init.bestScore
      · rw [show searchStep block cfg init s =
            ⟨(hillclimb block cfg s).1, (hillclimb block cfg s).2⟩ from by
          simp only [searchStep]
          rw [if_pos hcase]]
        rcases ih ⟨(hillclimb block cfg s).1, (hillclimb block cfg s).2⟩ with
          ⟨hres, hall⟩ | ⟨i, hi, h1, h2, h3, h4, h5⟩
        · right
          refine ⟨0, Nat.succ_pos t.length, ?_, ?_, ?_, ?_, ?_⟩
          · rw [hres]
            simp
          · rw [hres]
            simp
          · rw [hres]
            exact hcase
          · intro j hj hji
            exact absurd hji (Nat.not_lt_zero j)
          · intro j hj
            cases j with
            | zero =>
                rw [hres]
                simp
            | succ j =>
                rw [hres]
                simp only [List.getElem_cons_succ]
                exact hall j (by simp only [List.length_cons] at hj; omega)
        · right
          refine ⟨i + 1, Nat.succ_lt_succ hi, ?_, ?_, ?_, ?_, ?_⟩
          · simpa only [List.getElem_cons_succ] using h1
          · simpa only [List.getElem_cons_succ] using h2
          · exact lt_trans hcase h3
          · intro j hj hji
            cases j with
            | zero =>
                simp only [List.getElem_cons_zero]
                exact h3
            | succ j =>
                simp only [List.getElem_cons_succ]
                exact h4 j (by simp only [List.length_cons] at hj; omega) (by omega)
          · intro j hj
            cases j with
            | zero =>
                simp only [List.getElem_cons_zero]
                exact le_of_lt h3
            | succ j =>
                simp only [List.getElem_cons_succ]
                exact h5 j (by simp only [List.length_cons] at hj; omega)
      · rw [show searchStep block cfg init s = init from by
          simp only [searchStep]
          rw [if_neg hcase]]
        rcases ih init with ⟨hres, hall⟩ | ⟨i, hi, h1, h2, h3, h4, h5⟩
        · left
          refine ⟨hres, ?_⟩
          intro j hj
          cases j with
          | zero =>
              simp only [List.getElem_cons_zero]
              exact le_of_not_lt hcase
          | succ j =>
              simp only [List.getElem_cons_succ]
              exact hall j (by simp only [List.length_cons] at hj; omega)
        · right
          refine ⟨i + 1, Nat.succ_lt_succ hi, ?_, ?_, ?_, ?_, ?_⟩
          · simpa only [List.getElem_cons_succ] using h1
          · simpa only [List.getElem_cons_succ] using h2
          · exact h3
          · intro j hj hji
            cases j with
            | zero =>
                simp only [List.getElem_cons_zero]
                exact lt_of_le_of_lt (le_of_not_lt hcase) h3
            | succ j =>
                simp only [List.getElem_cons_succ]
                exact h4 j (by simp only [List.length_cons] at hj; omega) (by omega)
          · intro j hj
            cases j with
            | zero =>
                simp only [List.getElem_cons_zero]
                exact le_trans (le_of_not_lt hcase) (le_of_lt h3)
            | succ j =>
                simp only [List.getElem_cons_succ]
                exact h5 j (by simp only [List.length_cons] at hj; omega)

theorem hillclimb_nonneg (block : List Nat) (cfg : SearchConfig) (s : Nat) :
    0 ≤ (hillclimb block cfg s).2 := by
  rw [hillclimb_inv]
  exact score_list_nonneg _ _

theorem searchBestListID_cases (block : List Nat) (cfg : SearchConfig) (draws : Nat → Nat)
    (h : 1 ≤ cfg.restarts) :
    ∃ i, i < cfg.restarts.toNat ∧
      (searchBestListID block cfg draws).bestID = (hillclimb block cfg (draws i)).1 ∧
      (searchBestListID block cfg draws).bestScore = (hillclimb block cfg (draws i)).2 ∧
      (∀ j, j < i →
        (hillclimb block cfg (draws j)).2 < (searchBestListID block cfg draws).bestScore) ∧
      (∀ j, j < cfg.restarts.toNat →
        (hillclimb block cfg (draws j)).2 ≤ (searchBestListID block cfg draws).bestScore) := by
  have hR : 1 ≤ cfg.restarts.toNat := by omega
  have hlen : ((List.range cfg.restarts.toNat).map draws).length = cfg.restarts.toNat := by
    simp
  have hget : ∀ j, (hj : j < ((List.range cfg.restarts.toNat).map draws).length) →
      ((List.range cfg.restarts.toNat).map draws)[j] = draws j := by
    intro j hj
    simp
  rcases searchFold_spec block cfg ((List.range cfg.restarts.toNat).map draws) ⟨0, -1⟩ with
    ⟨hres, hall⟩ | ⟨i, hi, h1, h2, h3, h4, h5⟩
  · exfalso
    have hj0 : 0 < ((List.range cfg.restarts.toNat).map draws).length := by omega
    have h0 := hall 0 hj0
    rw [hget 0 hj0] at h0
    have h0' : (hillclimb block cfg (draws 0)).2 ≤ -1 := h0
    have hn := hillclimb_nonneg block cfg (draws 0)
    omega
  · have hi' : i < cfg.restarts.toNat := by omega
    refine ⟨i, hi', ?_, ?_, ?_, ?_⟩
    · show (((List.range cfg.restarts.toNat).map draws).foldl
          (searchStep block cfg) ⟨0, -1⟩).bestID = (hillclimb block cfg (draws i)).1
      rw [h1, hget i hi]
    · show (((List.range cfg.restarts.toNat).map draws).foldl
          (searchStep block cfg) ⟨0, -1⟩).bestScore = (hillclimb block cfg (draws i)).2
      rw [h2, hget i hi]
    · intro j hj
      have hjl : j < ((List.range cfg.restarts.toNat).map draws).length := by omega
      have := h4 j hjl hj
      rw [hget j hjl] at this
      exact this
    · intro j hj
      have hjl : j < ((List.range cfg.restarts.toNat).map draws).length := by omega
      have := h5 j hjl
      rw [hget j hjl] at this
      exact this

-- ## Claim C8: ties in score keep the first-found best

/-- Claim C8: with at least one restart, the search returns the (key,
score) of the restart with the earliest index achieving the maximal
hillclimb score: every earlier restart scores strictly below the returned
score, and no restart scores above it, so a later restart replaces the
tracked best only on strict improvement. -/
theorem search_tracks_first_best (block : List Nat) (cfg : SearchConfig) (draws : Nat → Nat)
    (h : 1 ≤ cfg.restarts) :
    ∃ i, i < cfg.restarts.toNat ∧
      (searchBestListID block cfg draws).bestID = (hillclimb block cfg (draws i)).1 ∧
      (searchBestListID block cfg draws).bestScore = (hillclimb block cfg (draws i)).2 ∧
      (∀ j, j < i →
        (hillclimb block cfg (draws j)).2 < (searchBestListID block cfg draws).bestScore) ∧
      (∀ j, j < cfg.restarts.toNat →
        (hillclimb block cfg (draws j)).2 ≤ (searchBestListID block cfg draws).bestScore) :=
  searchBestListID_cases block cfg draws h

/-- Witness for C8 with one restart on a concrete block. -/
theorem search_tracks_first_best_witness :
    (1 : Int) ≤ (SearchConfig.mk 1 0 true).restarts ∧
      (∃ i, i < (SearchConfig.mk 1 0 true).restarts.toNat ∧
        (searchBestListID [0] ⟨1, 0, true⟩ (fun _ => 0)).bestID =
          (hillclimb [0] ⟨1, 0, true⟩ 0).1 ∧
        (searchBestListID [0] ⟨1, 0, true⟩ (fun _ => 0)).bestScore =
          (hillclimb [0] ⟨1, 0, true⟩ 0).2 ∧
        (∀ j, j < i → (hillclimb [0] ⟨1, 0, true⟩ 0).2 <
          (searchBestListID [0] ⟨1, 0, true⟩ (fun _ => 0)).bestScore) ∧
        (∀ j, j < (SearchConfig.mk 1 0 true).restarts.toNat →
          (hillclimb [0] ⟨1, 0, true⟩ 0).2 ≤
            (searchBestListID [0] ⟨1, 0, true⟩ (fun _ => 0)).bestScore)) :=
  ⟨by decide, search_tracks_first_best [0] ⟨1, 0, true⟩ (fun _ => 0) (by decide)⟩

-- ## Claim C10: the returned score is the score of the returned key

/-- Claim C10: with at least one restart, the returned `SearchResult` is
internally consistent — its `bestScore` equals `score_list` of its
`bestID` on the block. -/
theorem search_result_consistent (block : List Nat) (cfg : SearchConfig) (draws : Nat → Nat)
    (h : 1 ≤ cfg.restarts) :
    (searchBestListID block cfg draws).bestScore =
      score_list (searchBestListID block cfg draws).bestID block := by
  obtain ⟨i, _, h1, h2, _, _⟩ := searchBestListID_cases block cfg draws h
  rw [h1, h2]
  exact hillclimb_inv block cfg (draws i)

/-- Witness for C10 with one restart on a concrete block. -/
theorem search_result_consistent_witness :
    (searchBestListID [5] ⟨1, 0, true⟩ (fun _ => 3)).bestScore =
      score_list (searchBestListID [5] ⟨1, 0, true⟩ (fun _ => 3)).bestID [5] :=
  search_result_consistent [5] ⟨1, 0, true⟩ (fun _ => 3) (by decide)

end ImaginaryListSearch
